import Mathlib

/-!
# Verification of the aider session & streaming-protocol engine

Shallow embedding of the repository's core: the SSE streaming decoder
(`chatCompletionStream` in the node implementation, `Client.CompleteStream`
in the go implementation), message assembly (`buildMessages`), the session
turn (`send` / `sendMessage`), slash-command parsing (`parseCommand`), the
`/drop` command, and the model-list cache (`fetchModels` / `Manager.List`).

Byte streams are modelled as `List Char`: the node decoder feeds raw bytes
through a stateful `TextDecoder` whose output is chunk-boundary independent
at the codepoint level, so arbitrary byte partitions are captured by
arbitrary character partitions.  `JSON.parse` is modelled by a small
executable JSON parser covering the protocol subset (objects, arrays,
strings with the common escapes, integers, `true`/`false`/`null`).
-/

namespace Aider

/-- Convert a string literal to the `List Char` representation used throughout. -/
def chars (s : String) : List Char := s.toList

/-- Whitespace recognised by `String.prototype.trim` (ASCII subset, which is
all that occurs in the protocol and the commands). -/
def isWsChar (c : Char) : Bool := c == ' ' || c == '\t' || c == '\n' || c == '\r'

/-- Leading-whitespace trim. -/
def ltrim (l : List Char) : List Char := l.dropWhile isWsChar

/-- Trailing-whitespace trim. -/
def rtrim (l : List Char) : List Char := (l.reverse.dropWhile isWsChar).reverse

/-- JS `input.trim()`: trim both ends. -/
def trimChars (l : List Char) : List Char := rtrim (ltrim l)

/-- JS `buffer.split("\n")` followed by `buffer = lines.pop()`: returns the
complete lines (segments terminated by a newline) and the trailing partial
segment retained as the new carry-over buffer. -/
def splitLines : List Char → List (List Char) × List Char
  | [] => ([], [])
  | c :: cs =>
    match splitLines cs with
    | (lines, rest) =>
      if c = '\n' then ([] :: lines, rest)
      else
        match lines with
        | [] => ([], c :: rest)
        | l :: ls => ((c :: l) :: ls, rest)

theorem splitLines_nil : splitLines [] = ([], []) := rfl

/-- How `splitLines` decomposes over concatenation: the carry-over of the
first part merges into the first segment of the second part. -/
theorem splitLines_append (x y : List Char) :
    splitLines (x ++ y) =
      (match splitLines y with
       | ([], py) => ((splitLines x).1, (splitLines x).2 ++ py)
       | (h :: t, py) => ((splitLines x).1 ++ ((splitLines x).2 ++ h) :: t, py)) := by
  induction x with
  | nil =>
    simp only [List.nil_append, splitLines_nil]
    cases hy : splitLines y with
    | mk ly py => cases ly <;> simp
  | cons c cs ih =>
    simp only [List.cons_append, splitLines]
    simp only [List.append_eq]
    rw [ih]
    cases hy : splitLines y with
    | mk ly py =>
      cases hcs : splitLines cs with
      | mk lcs pcs =>
        cases ly with
        | nil =>
          by_cases hc : c = '\n'
          · simp [hc]
          · cases lcs <;> simp [hc]
        | cons h t =>
          by_cases hc : c = '\n'
          · simp [hc]
          · cases lcs <;> simp [hc]

/-- A newline-free string splits into no complete lines and itself as carry-over. -/
theorem splitLines_no_newline (l : List Char) (h : '\n' ∉ l) :
    splitLines l = ([], l) := by
  induction l with
  | nil => rfl
  | cons c cs ih =>
    simp only [List.mem_cons, not_or] at h
    simp only [splitLines, ih h.2]
    have hc : ¬ c = '\n' := fun hh => h.1 hh.symm
    simp [hc]

/-- The carry-over returned by `splitLines` never contains a newline. -/
theorem splitLines_rest_no_newline (l : List Char) : '\n' ∉ (splitLines l).2 := by
  induction l with
  | nil => simp [splitLines]
  | cons c cs ih =>
    simp only [splitLines]
    cases hcs : splitLines cs with
    | mk lines rest =>
      rw [hcs] at ih
      by_cases hc : c = '\n'
      · simpa [hc] using ih
      · cases lines with
        | nil =>
          simp only [hc, if_false]
          intro hmem
          rcases List.mem_cons.mp hmem with h1 | h2
          · exact hc h1.symm
          · exact ih h2
        | cons l ls => simpa [hc] using ih

/-! ## The node streaming decoder (`chatCompletionStream`)

The decoder keeps a carry-over buffer across pushes, splits completed text on
newlines, and handles each complete line: trim, discard unless it starts with
`"data: "`, stop at the `[DONE]` sentinel, otherwise hand the payload to the
JSON stage.  The per-payload emission function `emitOf` is a parameter here
(instantiated below with the node JSON stage), so the line/buffer machinery
is proved once for any payload handling. -/

/-- The SSE frame marker `"data: "` (6 characters). -/
def frameHdr : List Char := chars "data: "

/-- The end-of-stream sentinel payload. -/
def doneLit : List Char := chars "[DONE]"

/-- One complete line of the stream: `trimmed = line.trim()`; skip unless it
starts with `"data: "`; `data = trimmed.slice(6)`; terminate on `[DONE]`;
otherwise emit whatever the payload stage extracts.  Returns the emissions
and whether the sentinel was observed. -/
def processLine (emitOf : List Char → List (List Char)) (line : List Char) :
    List (List Char) × Bool :=
  let t := trimChars line
  if frameHdr.isPrefixOf t then
    let d := t.drop 6
    if d = doneLit then ([], true) else (emitOf d, false)
  else ([], false)

/-- Process complete lines in order, stopping at the sentinel. -/
def processLines (emitOf : List Char → List (List Char)) :
    List (List Char) → List (List Char) × Bool
  | [] => ([], false)
  | l :: ls =>
    match processLine emitOf l with
    | (e, true) => (e, true)
    | (e, false) =>
      match processLines emitOf ls with
      | (es, fl) => (e ++ es, fl)

theorem processLines_append (emitOf : List Char → List (List Char))
    (xs ys : List (List Char)) :
    processLines emitOf (xs ++ ys) =
      (match processLines emitOf xs with
       | (e1, true) => (e1, true)
       | (e1, false) =>
         match processLines emitOf ys with
         | (e2, f2) => (e1 ++ e2, f2)) := by
  induction xs with
  | nil =>
    cases hys : processLines emitOf ys with
    | mk e2 f2 => simp [processLines, hys]
  | cons l ls ih =>
    simp only [List.cons_append, processLines]
    simp only [List.append_eq]
    rw [ih]
    cases hpl : processLine emitOf l with
    | mk e fl =>
      cases fl
      · cases hls : processLines emitOf ls with
        | mk es f =>
          cases f
          · cases processLines emitOf ys with
            | mk e2 f2 => simp
          · simp
      · simp

/-- Decoder state between pushes: the carry-over buffer and whether the
sentinel has terminated the stream (after which no bytes are read). -/
structure DecState where
  buffer : List Char
  done : Bool
  deriving DecidableEq

/-- Decoder state at the start of a streamed response. -/
def initState : DecState := ⟨[], false⟩

/-- One push of text arriving from the transport: append to the carry-over
buffer, split on newlines, retain the trailing partial segment, and process
every complete line. -/
def feed (emitOf : List Char → List (List Char)) (s : DecState) (push : List Char) :
    DecState × List (List Char) :=
  if s.done then (s, [])
  else
    match splitLines (s.buffer ++ push) with
    | (lines, rest) =>
      match processLines emitOf lines with
      | (ems, true) => (⟨[], true⟩, ems)
      | (ems, false) => (⟨rest, false⟩, ems)

/-- The carry-over buffer never holds a newline. -/
theorem feed_buffer_no_newline (emitOf : List Char → List (List Char))
    (s : DecState) (hs : '\n' ∉ s.buffer) (push : List Char) :
    '\n' ∉ (feed emitOf s push).1.buffer := by
  unfold feed
  by_cases hd : s.done
  · simpa [hd] using hs
  · simp only [hd, if_false]
    cases hsp : splitLines (s.buffer ++ push) with
    | mk lines rest =>
      cases hpr : processLines emitOf lines with
      | mk ems fl =>
        cases fl
        · have := splitLines_rest_no_newline (s.buffer ++ push)
          rw [hsp] at this
          simpa using this
        · simp

/-- Splitting one push into two consecutive pushes neither loses nor
reorders emissions: the decoder is a homomorphism from concatenation to
sequential feeding. -/
theorem feed_append (emitOf : List Char → List (List Char))
    (s : DecState) (a b : List Char) :
    feed emitOf s (a ++ b) =
      ((feed emitOf (feed emitOf s a).1 b).1,
       (feed emitOf s a).2 ++ (feed emitOf (feed emitOf s a).1 b).2) := by
  by_cases hd : s.done
  · simp [feed, hd]
  · have hassoc : s.buffer ++ (a ++ b) = (s.buffer ++ a) ++ b := by
      rw [List.append_assoc]
    cases h1 : splitLines (s.buffer ++ a) with
    | mk l1 p1 =>
      have hp1 : '\n' ∉ p1 := by
        have := splitLines_rest_no_newline (s.buffer ++ a)
        rw [h1] at this; simpa using this
      cases hb : splitLines b with
      | mk lb pb =>
        cases hpr1 : processLines emitOf l1 with
        | mk e1 f1 =>
          cases lb with
          | nil =>
            have hsplit : splitLines (s.buffer ++ (a ++ b)) = (l1, p1 ++ pb) := by
              rw [hassoc, splitLines_append, h1, hb]
            have hsplit2 : splitLines (p1 ++ b) = ([], p1 ++ pb) := by
              rw [splitLines_append, splitLines_no_newline p1 hp1, hb]
            cases f1
            · simp [feed, hd, hsplit, h1, hpr1, hsplit2, processLines]
            · simp [feed, hd, hsplit, h1, hpr1]
          | cons h t =>
            have hsplit : splitLines (s.buffer ++ (a ++ b)) =
                (l1 ++ (p1 ++ h) :: t, pb) := by
              rw [hassoc, splitLines_append, h1, hb]
            have hsplit2 : splitLines (p1 ++ b) = ((p1 ++ h) :: t, pb) := by
              rw [splitLines_append, splitLines_no_newline p1 hp1, hb]
              simp
            cases f1
            · cases hpr2 : processLines emitOf ((p1 ++ h) :: t) with
              | mk e2 f2 =>
                have hprall : processLines emitOf (l1 ++ (p1 ++ h) :: t) =
                    (e1 ++ e2, f2) := by
                  rw [processLines_append, hpr1, hpr2]
                cases f2
                · simp [feed, hd, hsplit, h1, hpr1, hprall, hsplit2, hpr2]
                · simp [feed, hd, hsplit, h1, hpr1, hprall, hsplit2, hpr2]
            · have hprall : processLines emitOf (l1 ++ (p1 ++ h) :: t) =
                  (e1, true) := by
                rw [processLines_append, hpr1]
              simp [feed, hd, hsplit, h1, hpr1, hprall]

/-- Feed a list of pushes in order, accumulating emissions. -/
def feedAll (emitOf : List Char → List (List Char)) (s : DecState) :
    List (List Char) → DecState × List (List Char)
  | [] => (s, [])
  | p :: ps =>
    match feed emitOf s p with
    | (s1, e1) =>
      match feedAll emitOf s1 ps with
      | (s2, e2) => (s2, e1 ++ e2)

/-- Decode a streamed body delivered as the given pushes, from a fresh state. -/
def decodePushes (emitOf : List Char → List (List Char))
    (pushes : List (List Char)) : List (List Char) :=
  (feedAll emitOf initState pushes).2

/-- Feeding pushes one by one equals feeding their concatenation at once,
from any reachable state (one whose carry-over holds no newline). -/
theorem feedAll_eq_feed_join (emitOf : List Char → List (List Char))
    (ps : List (List Char)) :
    ∀ (s : DecState), '\n' ∉ s.buffer →
      feedAll emitOf s ps = feed emitOf s ps.flatten := by
  induction ps with
  | nil =>
    intro s hs
    cases s with
    | mk buf dn =>
      cases dn
      · have hb : splitLines buf = ([], buf) :=
          splitLines_no_newline buf (by simpa using hs)
        simp [feedAll, feed, processLines, hb]
      · simp [feedAll, feed]
  | cons p ps ih =>
    intro s hs
    have hjoin : (p :: ps).flatten = p ++ ps.flatten := rfl
    rw [hjoin, feed_append]
    cases hf : feed emitOf s p with
    | mk s1 e1 =>
      have hs1 : '\n' ∉ s1.buffer := by
        have := feed_buffer_no_newline emitOf s hs p
        rw [hf] at this; exact this
      simp only [feedAll, hf, ih s1 hs1]

/-- Chunk-boundary independence from the fresh state, for any payload stage. -/
theorem decodePushes_eq_single (emitOf : List Char → List (List Char))
    (pushes : List (List Char)) :
    decodePushes emitOf pushes = decodePushes emitOf [pushes.flatten] := by
  unfold decodePushes
  rw [feedAll_eq_feed_join emitOf pushes initState (by simp [initState])]
  rw [feedAll_eq_feed_join emitOf [pushes.flatten] initState (by simp [initState])]
  simp

/-! ## JSON values and parsing

Models `JSON.parse` (node) and the input side of `encoding/json` (go) on the
protocol subset: objects, arrays, strings with the common escapes, integers,
`true`/`false`/`null`.  Parse failure is `none`. -/

inductive Json where
  | jnull
  | jbool (b : Bool)
  | jnum (n : Int)
  | jstr (s : List Char)
  | jarr (xs : List Json)
  | jobj (fields : List (List Char × Json))

/-- JSON insignificant whitespace. -/
def jsonWs (c : Char) : Bool := c == ' ' || c == '\t' || c == '\n' || c == '\r'

def skipWs (l : List Char) : List Char := l.dropWhile jsonWs

/-- Body of a JSON string after the opening quote: returns the decoded
content and the remainder after the closing quote. -/
def parseStrBody : List Char → Option (List Char × List Char)
  | [] => none
  | '"' :: cs => some ([], cs)
  | '\\' :: e :: cs =>
    (if e = '"' then some '"'
     else if e = '\\' then some '\\'
     else if e = '/' then some '/'
     else if e = 'n' then some '\n'
     else if e = 't' then some '\t'
     else if e = 'r' then some '\r'
     else none).bind fun d =>
      (parseStrBody cs).map fun r => (d :: r.1, r.2)
  | c :: cs => (parseStrBody cs).map fun r => (c :: r.1, r.2)

def digitVal (c : Char) : Nat := c.toNat - '0'.toNat

/-- Consume a run of decimal digits, accumulating their value. -/
def parseDigitsAux : List Char → Nat → Nat × List Char
  | [], acc => (acc, [])
  | c :: cs, acc =>
    if c.isDigit then parseDigitsAux cs (acc * 10 + digitVal c) else (acc, c :: cs)

mutual

/-- Parse one JSON value; fuel bounds the nesting recursion. -/
def parseVal : Nat → List Char → Option (Json × List Char)
  | 0, _ => none
  | Nat.succ fuel, l =>
    match skipWs l with
    | [] => none
    | c :: cs =>
      if c = '\x7b' then
        match skipWs cs with
        | '\x7d' :: r => some (Json.jobj [], r)
        | _ => (parseFields fuel cs).map fun r => (Json.jobj r.1, r.2)
      else if c = '[' then
        match skipWs cs with
        | ']' :: r => some (Json.jarr [], r)
        | _ => (parseElems fuel cs).map fun r => (Json.jarr r.1, r.2)
      else if c = '"' then
        (parseStrBody cs).map fun r => (Json.jstr r.1, r.2)
      else if c = 't' then
        match cs with
        | 'r' :: 'u' :: 'e' :: r => some (Json.jbool true, r)
        | _ => none
      else if c = 'f' then
        match cs with
        | 'a' :: 'l' :: 's' :: 'e' :: r => some (Json.jbool false, r)
        | _ => none
      else if c = 'n' then
        match cs with
        | 'u' :: 'l' :: 'l' :: r => some (Json.jnull, r)
        | _ => none
      else if c = '-' then
        match cs with
        | d :: ds =>
          if d.isDigit then
            match parseDigitsAux (d :: ds) 0 with
            | (n, r) => some (Json.jnum (-(n : Int)), r)
          else none
        | [] => none
      else if c.isDigit then
        match parseDigitsAux (c :: cs) 0 with
        | (n, r) => some (Json.jnum ((n : Nat) : Int), r)
      else none

/-- Parse the elements of a non-empty array, up to and including `]`. -/
def parseElems : Nat → List Char → Option (List Json × List Char)
  | 0, _ => none
  | Nat.succ fuel, l =>
    match parseVal fuel l with
    | none => none
    | some (v, r) =>
      match skipWs r with
      | ',' :: r2 => (parseElems fuel r2).map fun p => (v :: p.1, p.2)
      | ']' :: r2 => some ([v], r2)
      | _ => none

/-- Parse the fields of a non-empty object, up to and including the brace. -/
def parseFields : Nat → List Char → Option (List (List Char × Json) × List Char)
  | 0, _ => none
  | Nat.succ fuel, l =>
    match skipWs l with
    | '"' :: r =>
      match parseStrBody r with
      | none => none
      | some (k, r2) =>
        match skipWs r2 with
        | ':' :: r3 =>
          match parseVal fuel r3 with
          | none => none
          | some (v, r4) =>
            match skipWs r4 with
            | ',' :: r5 => (parseFields fuel r5).map fun p => ((k, v) :: p.1, p.2)
            | '\x7d' :: r5 => some ([(k, v)], r5)
            | _ => none
        | _ => none
    | _ => none

end

/-- `JSON.parse`: one value covering the whole input (trailing whitespace
permitted). -/
def parseJson (l : List Char) : Option Json :=
  match parseVal (2 * l.length + 2) l with
  | some (v, r) => if skipWs r = [] then some v else none
  | none => none

/-! ## The node payload stage: `chunk.choices?.[0]?.delta?.content` -/

/-- JS property access on a parsed JSON value; later duplicate keys win, as
in `JSON.parse`.  Accessing a property of a non-object (or of `null`, which
in the source would throw inside the guarding `try`) yields `none`. -/
def jField (j : Json) (key : List Char) : Option Json :=
  match j with
  | Json.jobj fs => fs.foldl (fun acc f => if f.1 = key then some f.2 else acc) none
  | _ => none

/-- JS `?.[0]` on an array value. -/
def jIndex0 (j : Json) : Option Json :=
  match j with
  | Json.jarr (x :: _) => some x
  | _ => none

/-- `choice.delta?.content` when it is a string; the protocol's `content`
is text, `null`, or absent, and the latter two are falsy like `""`. -/
def tsDeltaContentOfChoice (x : Json) : Option (List Char) :=
  match jField x (chars "delta") with
  | none => none
  | some dj =>
    match jField dj (chars "content") with
    | some (Json.jstr s) => some s
    | _ => none

/-- `chunk.choices?.[0]?.delta?.content` on one parsed chunk. -/
def tsContentDelta (j : Json) : Option (List Char) :=
  match jField j (chars "choices") with
  | none => none
  | some cj =>
    match jIndex0 cj with
    | none => none
    | some x => tsDeltaContentOfChoice x

/-- `if (content) yield content`: the empty string is falsy and not emitted. -/
def tsEmitJson (j : Json) : List (List Char) :=
  match tsContentDelta j with
  | some s => if s = [] then [] else [s]
  | none => []

/-- The node per-payload stage: `JSON.parse` inside `try`, malformed JSON
silently skipped (`catch` ignores), then the optional-chaining extraction. -/
def tsEmitOf (payload : List Char) : List (List Char) :=
  match parseJson payload with
  | some j => tsEmitJson j
  | none => []

/-- `chatCompletionStream`'s decoding of a streamed body arriving as the
given pushes. -/
def tsDecodePushes (pushes : List (List Char)) : List (List Char) :=
  decodePushes tsEmitOf pushes

/-- Decoding the whole body as one single push. -/
def tsDecodeBytes (stream : List Char) : List (List Char) :=
  tsDecodePushes [stream]

/-! ## The go payload stage: `json.Unmarshal` into `StreamChunk` -/

structure StreamDelta where
  role : List Char
  content : List Char
  deriving DecidableEq

structure StreamChoice where
  index : Int
  delta : StreamDelta
  finishReason : Option (List Char)
  deriving DecidableEq

structure StreamChunk where
  id : List Char
  object : List Char
  choices : List StreamChoice
  deriving DecidableEq

/-- Unmarshal a string-typed struct field: absent or `null` leaves the zero
value, a string is taken, any other type is an unmarshal error. -/
def strFieldD (j : Json) (key : List Char) : Option (List Char) :=
  match jField j key with
  | none => some []
  | some Json.jnull => some []
  | some (Json.jstr s) => some s
  | some _ => none

/-- Unmarshal a `*string` field: absent or `null` is the nil pointer. -/
def optStrField (j : Json) (key : List Char) : Option (Option (List Char)) :=
  match jField j key with
  | none => some none
  | some Json.jnull => some none
  | some (Json.jstr s) => some (some s)
  | some _ => none

/-- Unmarshal an `int` field: absent or `null` leaves zero. -/
def intFieldD (j : Json) (key : List Char) : Option Int :=
  match jField j key with
  | none => some 0
  | some Json.jnull => some 0
  | some (Json.jnum n) => some n
  | some _ => none

/-- Unmarshal a `StreamDelta` value (absent/`null` gives the zero value). -/
def jsonToDelta : Option Json → Option StreamDelta
  | none => some ⟨[], []⟩
  | some Json.jnull => some ⟨[], []⟩
  | some (Json.jobj fs) =>
    match strFieldD (Json.jobj fs) (chars "role"),
          strFieldD (Json.jobj fs) (chars "content") with
    | some r, some c => some ⟨r, c⟩
    | _, _ => none
  | some _ => none

/-- Unmarshal one element of the `choices` array. -/
def jsonToChoice (x : Json) : Option StreamChoice :=
  match x with
  | Json.jnull => some ⟨0, ⟨[], []⟩, none⟩
  | Json.jobj _ =>
    match intFieldD x (chars "index"),
          jsonToDelta (jField x (chars "delta")),
          optStrField x (chars "finish_reason") with
    | some i, some d, some fr => some ⟨i, d, fr⟩
    | _, _, _ => none
  | _ => none

/-- Unmarshal each element of a list, failing if any element fails. -/
def mapOpt (f : α → Option β) : List α → Option (List β)
  | [] => some []
  | a :: as =>
    match f a with
    | none => none
    | some b =>
      match mapOpt f as with
      | none => none
      | some bs => some (b :: bs)

/-- Unmarshal a whole `StreamChunk`. -/
def jsonToChunk (j : Json) : Option StreamChunk :=
  match j with
  | Json.jnull => some ⟨[], [], []⟩
  | Json.jobj _ =>
    match strFieldD j (chars "id"), strFieldD j (chars "object") with
    | some i, some o =>
      match jField j (chars "choices") with
      | none => some ⟨i, o, []⟩
      | some Json.jnull => some ⟨i, o, []⟩
      | some (Json.jarr xs) =>
        match mapOpt jsonToChoice xs with
        | some cs => some ⟨i, o, cs⟩
        | none => none
      | some _ => none
    | _, _ => none
  | _ => none

/-- The go client's `json.Unmarshal([]byte(data), &chunk)`. -/
def goParseChunk (payload : List Char) : Option StreamChunk :=
  match parseJson payload with
  | some j => jsonToChunk j
  | none => none

/-- The go client's per-chunk loop: `for _, choice := range chunk.Choices`,
appending each non-empty `choice.Delta.Content` to the output and invoking
the callback with it. -/
def goEmitChunk (c : StreamChunk) : List (List Char) :=
  c.choices.foldl
    (fun acc ch => if ch.delta.content ≠ [] then acc ++ [ch.delta.content] else acc) []

theorem goEmit_foldl_aux (l : List StreamChoice) :
    ∀ acc : List (List Char),
      l.foldl
        (fun acc ch => if ch.delta.content ≠ [] then acc ++ [ch.delta.content] else acc)
        acc
      = acc ++ l.filterMap
          (fun ch => if ch.delta.content = [] then none else some ch.delta.content) := by
  induction l with
  | nil => simp
  | cons ch t ih =>
    intro acc
    by_cases h : ch.delta.content = []
    · rw [List.foldl_cons, if_neg (by simp [h]), ih acc]
      simp [List.filterMap_cons, h]
    · rw [List.foldl_cons, if_pos h, ih (acc ++ [ch.delta.content])]
      simp [List.filterMap_cons, h]

/-- The go loop emits exactly the non-empty deltas of the chunk's choices,
in order. -/
theorem goEmitChunk_eq_filterMap (c : StreamChunk) :
    goEmitChunk c = c.choices.filterMap
      (fun ch => if ch.delta.content = [] then none else some ch.delta.content) := by
  have h := goEmit_foldl_aux c.choices []
  simpa [goEmitChunk] using h

/-! ## Conversation state and message assembly -/

inductive Role where
  | system
  | user
  | assistant
  deriving DecidableEq

structure ChatMsg where
  role : Role
  content : List Char
  deriving DecidableEq

/-- The node `getFileContext`: `null` when no files are held, otherwise the
labelled blocks, each file's freshly read content or an `(unreadable)`
marker.  A file entry is a path with `some` content when readable. -/
def getFileContext (files : List (List Char × Option (List Char))) :
    Option (List Char) :=
  match files with
  | [] => none
  | _ =>
    some ((chars "Files in context:" ::
      files.map (fun f =>
        match f.2 with
        | some content => chars "\n--- " ++ f.1 ++ chars " ---\n" ++ content
        | none => chars "\n--- " ++ f.1 ++ chars " --- (unreadable)")).foldl
          (fun acc p => acc ++ chars "\n" ++ p) [] |>.drop 1)

/-- The single system-message content of the node `buildMessages`: the
prompt, with the file context appended to it when present. -/
def tsSystemContent (systemPrompt : List Char)
    (files : List (List Char × Option (List Char))) : List Char :=
  match getFileContext files with
  | some fc => systemPrompt ++ chars "\n\n" ++ fc
  | none => systemPrompt

/-- The node `ChatSession.buildMessages`: one system message (the prompt,
with the file context appended to it when present), the history, then the
new user message. -/
def tsBuildMessages (systemPrompt : List Char)
    (files : List (List Char × Option (List Char)))
    (history : List ChatMsg) (userMessage : List Char) : List ChatMsg :=
  ⟨Role.system, tsSystemContent systemPrompt files⟩ ::
    history ++ [⟨Role.user, userMessage⟩]

/-- The go file-context block (`Files in context:` plus one block per file;
the map's iteration order is modelled by the list order). -/
def goFileContext (files : List (List Char × List Char)) : List Char :=
  chars "Files in context:\n" ++
    (files.map (fun f => chars "\n--- " ++ f.1 ++ chars " ---\n" ++ f.2 ++ chars "\n")).flatten

/-- The go file-context system message: present exactly when a file is held. -/
def goFileMsgs (files : List (List Char × List Char)) : List ChatMsg :=
  match files with
  | [] => []
  | _ => [⟨Role.system, goFileContext files⟩]

/-- The go `Session.buildMessages`: the main system prompt, a SECOND system
message holding the file context when any file is held, the history, then
the new user message. -/
def goBuildMessages (systemPrompt : List Char)
    (files : List (List Char × List Char))
    (history : List ChatMsg) (userMessage : List Char) : List ChatMsg :=
  ⟨Role.system, systemPrompt⟩ :: goFileMsgs files ++
    history ++ [⟨Role.user, userMessage⟩]

/-! ## The turn: `sendMessage` / `send` (node) and `Session.sendMessage` (go) -/

/-- `LLMError` as thrown by the node client: message text and HTTP status. -/
structure LLMError where
  message : List Char
  statusCode : Nat
  deriving DecidableEq

/-- The node `ChatCompletionResponse` as accessed by optional chaining:
every step of `choices?.[0]?.message?.content` may be absent. -/
structure TsMessage where
  role : List Char
  content : Option (List Char)
  deriving DecidableEq

structure TsChoice where
  message : Option TsMessage
  deriving DecidableEq

structure TsResponse where
  choices : Option (List TsChoice)
  deriving DecidableEq

/-- What `fetch` produced for a non-streaming chat request: a response with
a status and decoded body, or a network-level rejection (connection refused,
DNS, timeout), which surfaces as a plain exception without a status. -/
inductive FetchOutcome where
  | response (status : Nat) (body : TsResponse) (rawText : List Char)
  | netFailure (message : List Char)

/-- Errors escaping a node turn. -/
inductive TurnError where
  | llm (e : LLMError)
  | net (message : List Char)
  deriving DecidableEq

/-- `response.ok`: status in the 2xx range. -/
def statusOk (status : Nat) : Prop := 200 ≤ status ∧ status < 300

instance (status : Nat) : Decidable (statusOk status) := by
  unfold statusOk; infer_instance

/-- The node `chatCompletion`: non-ok status throws `LLMError` with the
status code and raw body text; a rejected `fetch` propagates as-is. -/
def chatCompletion (r : FetchOutcome) : Except TurnError TsResponse :=
  match r with
  | FetchOutcome.response status body rawText =>
    if statusOk status then Except.ok body
    else Except.error (TurnError.llm
      ⟨chars "LLM request failed (" ++ chars (toString status) ++ chars "): " ++ rawText,
       status⟩)
  | FetchOutcome.netFailure m => Except.error (TurnError.net m)

/-- `response.choices?.[0]?.message?.content` -/
def tsContentOf (r : TsResponse) : Option (List Char) :=
  match r.choices with
  | none => none
  | some cs =>
    match cs.head? with
    | none => none
    | some c =>
      match c.message with
      | none => none
      | some m => m.content

/-- The node `sendMessage` on the non-streaming path:
`response.choices?.[0]?.message?.content ?? ""`. -/
def sendMessageNS (r : FetchOutcome) : Except TurnError (List Char) :=
  match chatCompletion r with
  | Except.error e => Except.error e
  | Except.ok body => Except.ok ((tsContentOf body).getD [])

/-- The node `ChatSession.send`: await the response, then push the user and
assistant entries; an exception propagates before either push, leaving the
history untouched. -/
def tsSendTurn (history : List ChatMsg) (userMessage : List Char)
    (r : FetchOutcome) : List ChatMsg × Except TurnError (List Char) :=
  match sendMessageNS r with
  | Except.error e => (history, Except.error e)
  | Except.ok content =>
    (history ++ [⟨Role.user, userMessage⟩, ⟨Role.assistant, content⟩],
     Except.ok content)

/-- The go `Session.sendMessage`: the user entry is appended to the history
BEFORE the transport call; on transport error the function returns the error
with that entry still in place; on success the assistant entry is appended. -/
def goSendMessage (history : List ChatMsg) (userMessage : List Char)
    (outcome : Except (List Char) (List Char)) :
    List ChatMsg × Option (List Char) :=
  let hist1 := history ++ [⟨Role.user, userMessage⟩]
  match outcome with
  | Except.error e => (hist1, some e)
  | Except.ok full => (hist1 ++ [⟨Role.assistant, full⟩], none)

/-- The node `sendMessage` on the streaming path: for each decoded delta,
`fullContent += chunk; onChunk(chunk)`.  Returns the callback invocations in
order and the returned full text. -/
def sendMessageStream (pushes : List (List Char)) :
    List (List Char) × List Char :=
  (tsDecodePushes pushes).foldl
    (fun acc d => (acc.1 ++ [d], acc.2 ++ d)) ([], [])

/-! ## Slash commands -/

/-- The node `parseCommand`: trim, require a leading `/`, take the name up
to the first space (lower-cased), the rest of the trimmed input after that
space as the argument string. -/
def parseCommand (input : List Char) : Option (List Char × List Char) :=
  let trimmed := trimChars input
  if trimmed.head? = some '/' then
    match trimmed.findIdx? (fun c => c == ' ') with
    | none => some ((trimmed.drop 1).map Char.toLower, [])
    | some spaceIdx =>
      some (((trimmed.take spaceIdx).drop 1).map Char.toLower,
            trimmed.drop (spaceIdx + 1))
  else none

/-- The `drop` command's `execute`: trim the argument, resolve it, delete it
from the file set if present, otherwise report that it is not in context.
Returns the new file set and the output line; no branch throws. -/
def dropExecute (resolve : List Char → List Char)
    (files : List (List Char)) (args : List Char) :
    List (List Char) × List Char :=
  let filePath := trimChars args
  if filePath = [] then (files, chars "Usage: /drop <file>")
  else
    let resolved := resolve filePath
    if resolved ∈ files then
      (files.erase resolved, chars "Dropped: " ++ filePath)
    else
      (files, chars "File not in context: " ++ filePath)

/-! ## The model-list cache -/

structure ModelInfo where
  id : List Char
  deriving DecidableEq

/-- The node `fetchModels` (and identically the go `Manager.List`): return
the cached list when present, otherwise hit the network; a successful fetch
fills the cache.  Result: new cache, returned value, and whether a network
request was performed. -/
def fetchModels (cache : Option (List ModelInfo))
    (net : Except (List Char) (List ModelInfo)) :
    Option (List ModelInfo) × Except (List Char) (List ModelInfo) × Bool :=
  match cache with
  | some ms => (some ms, Except.ok ms, false)
  | none =>
    match net with
    | Except.ok ms => (some ms, Except.ok ms, true)
    | Except.error e => (none, Except.error e, true)

/-- The node `clearModelCache` / go `Manager.Invalidate`. -/
def clearModelCache (_cache : Option (List ModelInfo)) : Option (List ModelInfo) :=
  none

/-- A whole sequence of model-list calls, threading the cache; each entry of
`nets` is what the network would have answered had it been consulted. -/
def fetchModelsSeq (cache : Option (List ModelInfo)) :
    List (Except (List Char) (List ModelInfo)) →
    Option (List ModelInfo) × List (Except (List Char) (List ModelInfo) × Bool)
  | [] => (cache, [])
  | net :: nets =>
    match fetchModels cache net with
    | (cache1, res, req) =>
      match fetchModelsSeq cache1 nets with
      | (cacheEnd, results) => (cacheEnd, (res, req) :: results)

/-! ## Claim C2 -/

/-- C2: For every byte sequence fed to the streaming decoder, and for every
way of partitioning that sequence into arbitrary-sized pushes (including
splits in the middle of an SSE line), decoding the pushes one by one emits
exactly the same ordered sequence of content deltas as decoding the whole
sequence as one single push. -/
theorem c2_chunk_boundary_independence (pushes : List (List Char)) :
    tsDecodePushes pushes = tsDecodeBytes pushes.flatten := by
  simpa [tsDecodePushes, tsDecodeBytes] using decodePushes_eq_single tsEmitOf pushes

/-! ## Claim C9 -/

theorem fetchModelsSeq_cached (ms : List ModelInfo)
    (nets : List (Except (List Char) (List ModelInfo))) :
    fetchModelsSeq (some ms) nets =
      (some ms, nets.map (fun _ => (Except.ok ms, false))) := by
  induction nets with
  | nil => rfl
  | cons n t ih => simp [fetchModelsSeq, fetchModels, ih]

/-- C9: After one successful model-list fetch in a session, every subsequent
call to the model-listing operation returns the same cached list without
performing another network request, until the explicit cache-clearing
operation is invoked; the cache is never invalidated automatically. -/
theorem c9_model_cache_persistent (ms : List ModelInfo)
    (nets : List (Except (List Char) (List ModelInfo))) :
    fetchModels none (Except.ok ms) = (some ms, Except.ok ms, true) ∧
    (fetchModelsSeq (some ms) nets).1 = some ms ∧
    (∀ r ∈ (fetchModelsSeq (some ms) nets).2, r = (Except.ok ms, false)) ∧
    clearModelCache (some ms) = none := by
  refine ⟨rfl, ?_, ?_, rfl⟩
  · rw [fetchModelsSeq_cached]
  · rw [fetchModelsSeq_cached]
    intro r hr
    obtain ⟨n, _, hn⟩ := List.mem_map.mp hr
    exact hn.symm

/-! ## Claim C7 -/

/-- C7: For every file-context set S and every path p whose absolute
resolution is not a member of S, executing the drop command with argument p
reports that the file is not in context, does not raise an error (the
handler is total), and leaves S unchanged (same members, same size). -/
theorem c7_drop_absent_unchanged (resolve : List Char → List Char)
    (files : List (List Char)) (p : List Char)
    (hne : trimChars p ≠ [])
    (habs : resolve (trimChars p) ∉ files) :
    dropExecute resolve files p =
      (files, chars "File not in context: " ++ trimChars p) := by
  unfold dropExecute
  simp [hne, habs]

theorem c7_drop_absent_unchanged_witness :
    trimChars (chars " /b.txt ") ≠ [] ∧
    (fun l : List Char => l) (trimChars (chars " /b.txt ")) ∉ [chars "/a.txt"] ∧
    dropExecute (fun l => l) [chars "/a.txt"] (chars " /b.txt ") =
      ([chars "/a.txt"], chars "File not in context: " ++ trimChars (chars " /b.txt ")) :=
  ⟨by decide, by decide,
   c7_drop_absent_unchanged (fun l => l) [chars "/a.txt"] (chars " /b.txt ")
     (by decide) (by decide)⟩

/-! ## Claim C10 -/

/-- C10: For every non-streaming 2xx response whose choices array is empty
or whose first choice has no message content (both cases make the optional
chain `choices?.[0]?.message?.content` come out absent), sendMessage does
not fail: it totalizes the missing field to the empty string and returns
`""`, and the session's send still appends the (user, assistant) pair to
history with the assistant entry's content equal to the empty string. -/
theorem c10_empty_choices_totalized (history : List ChatMsg)
    (userMessage rawText : List Char) (status : Nat) (body : TsResponse)
    (hok : statusOk status)
    (hmiss : tsContentOf body = none) :
    tsSendTurn history userMessage (FetchOutcome.response status body rawText) =
      (history ++ [⟨Role.user, userMessage⟩, ⟨Role.assistant, []⟩],
       Except.ok []) := by
  unfold tsSendTurn sendMessageNS chatCompletion
  simp [hok, hmiss]

theorem c10_empty_choices_totalized_witness :
    statusOk 200 ∧
    tsContentOf ⟨some []⟩ = none ∧
    tsSendTurn [] (chars "Hi") (FetchOutcome.response 200 ⟨some []⟩ []) =
      ([⟨Role.user, chars "Hi"⟩, ⟨Role.assistant, []⟩], Except.ok []) :=
  ⟨by decide, rfl, by
    have h := c10_empty_choices_totalized [] (chars "Hi") [] 200 ⟨some []⟩
      (by decide) rfl
    simpa using h⟩

/-! ## Claim C1 -/

/-- C1 (the claim, checked against both cited implementations): in the node
session a failed transport call (non-2xx, or network failure) reports an
error — carrying the HTTP status code in the non-2xx case — and leaves the
history exactly as it was.  The go `Session.sendMessage`, however, appends
the user entry BEFORE the transport call: at the failing input (empty
history, input "Hi", server answering 401) the history afterwards contains a
dangling user entry, contradicting the claim (and the repository's own
stated invariant), so this is a code bug in the go implementation. -/
theorem c1_transport_failure_history :
    (∀ (history : List ChatMsg) (userMessage rawText : List Char)
       (status : Nat) (body : TsResponse), ¬ statusOk status →
         (tsSendTurn history userMessage
            (FetchOutcome.response status body rawText)).1 = history ∧
         ∃ e : LLMError,
           (tsSendTurn history userMessage
              (FetchOutcome.response status body rawText)).2 =
             Except.error (TurnError.llm e) ∧ e.statusCode = status) ∧
    (∀ (history : List ChatMsg) (userMessage m : List Char),
       (tsSendTurn history userMessage (FetchOutcome.netFailure m)).1 = history) ∧
    (goSendMessage [] (chars "Hi")
        (Except.error (chars "API error 401: unauthorized")) =
      ([⟨Role.user, chars "Hi"⟩], some (chars "API error 401: unauthorized")) ∧
     ([⟨Role.user, chars "Hi"⟩] : List ChatMsg) ≠ ([] : List ChatMsg)) := by
  refine ⟨?_, ?_, rfl, by decide⟩
  · intro history userMessage rawText status body hbad
    unfold tsSendTurn sendMessageNS chatCompletion
    dsimp only
    rw [if_neg hbad]
    exact ⟨rfl, ⟨_, rfl, rfl⟩⟩
  · intro history userMessage m
    rfl

theorem c1_transport_failure_history_witness :
    ¬ statusOk 401 ∧
    (tsSendTurn [] (chars "Hi")
       (FetchOutcome.response 401 ⟨none⟩ (chars "unauthorized"))).1 = [] ∧
    (∃ e : LLMError,
       (tsSendTurn [] (chars "Hi")
          (FetchOutcome.response 401 ⟨none⟩ (chars "unauthorized"))).2 =
         Except.error (TurnError.llm e) ∧ e.statusCode = 401) := by
  have h := c1_transport_failure_history.1 [] (chars "Hi") (chars "unauthorized")
    401 ⟨none⟩ (by decide)
  exact ⟨by decide, h.1, h.2⟩

/-! ## Claims C4 and C5: frame-level behaviour of the node decoder -/

theorem splitLines_append_newline (x : List Char) :
    splitLines (x ++ ['\n']) = ((splitLines x).1 ++ [(splitLines x).2], []) := by
  rw [splitLines_append]
  have h : splitLines ['\n'] = ([[]], []) := rfl
  rw [h]
  simp

/-- Any push ending in a newline leaves an empty carry-over buffer. -/
theorem feed_newline_ends_buffer (emitOf : List Char → List (List Char))
    (x : List Char) :
    (feed emitOf initState (x ++ ['\n'])).1.buffer = [] := by
  unfold feed initState
  simp only [List.nil_append, splitLines_append_newline]
  cases hpl : processLines emitOf ((splitLines x).1 ++ [(splitLines x).2]) with
  | mk ems fl => cases fl <;> simp [hpl]

/-- A terminated stream ignores every further push. -/
theorem feed_done (emitOf : List Char → List (List Char)) (s : DecState)
    (h : s.done = true) (p : List Char) : feed emitOf s p = (s, []) := by
  simp [feed, h]

/-- Feeding one newline-terminated line from an empty carry-over buffer
behaves exactly as processing that single line. -/
theorem feed_line_of_empty_buffer (emitOf : List Char → List (List Char))
    (s : DecState) (hs : s.buffer = []) (line : List Char) (hln : '\n' ∉ line) :
    feed emitOf s (line ++ ['\n']) =
      ((if s.done then s
        else if (processLine emitOf line).2 then ⟨[], true⟩ else ⟨[], false⟩),
       if s.done then [] else (processLine emitOf line).1) := by
  cases s with
  | mk buf dn =>
    simp only at hs
    subst hs
    cases dn
    · have hsp : splitLines (([] : List Char) ++ (line ++ ['\n'])) = ([line], []) := by
        rw [List.nil_append, splitLines_append_newline,
            splitLines_no_newline line hln]
        simp
      unfold feed
      simp only [hsp]
      cases hpl : processLine emitOf line with
      | mk e fl => cases fl <;> simp [processLines, hpl]
    · simp [feed]

/-- A data line whose payload is malformed JSON (and is not the sentinel)
is processed without emission and without terminating the stream. -/
theorem processLine_skip (m : List Char)
    (hbad : parseJson ((trimChars (frameHdr ++ m)).drop 6) = none)
    (hnotdone : (trimChars (frameHdr ++ m)).drop 6 ≠ doneLit) :
    processLine tsEmitOf (frameHdr ++ m) = ([], false) := by
  unfold processLine
  by_cases hpre : frameHdr.isPrefixOf (trimChars (frameHdr ++ m))
  · simp [hpre, hnotdone, tsEmitOf, hbad]
  · simp [hpre]

/-- C4: For every input stream in which exactly one `data: ` payload fails
to parse as JSON and the remaining payloads are well-formed, decoding does
not abort (every branch of the decoder is total and the malformed frame is
skipped) and emits exactly the same ordered delta sequence as decoding the
stream with the malformed frame removed.  The frame occupies one complete
line of the stream; the surrounding parts `a`-then-newline and `b` are
arbitrary, so in particular they may hold any number of well-formed frames. -/
theorem c4_malformed_frame_skipped (a m b : List Char) (hnl : '\n' ∉ m)
    (hbad : parseJson ((trimChars (frameHdr ++ m)).drop 6) = none)
    (hnotdone : (trimChars (frameHdr ++ m)).drop 6 ≠ doneLit) :
    tsDecodeBytes ((a ++ ['\n']) ++ ((frameHdr ++ m) ++ ['\n']) ++ b) =
      tsDecodeBytes ((a ++ ['\n']) ++ b) := by
  have hnlfm : '\n' ∉ frameHdr ++ m := by
    intro hmem
    rcases List.mem_append.mp hmem with h1 | h2
    · revert h1; decide
    · exact hnl h2
  have hframe : processLine tsEmitOf (frameHdr ++ m) = ([], false) :=
    processLine_skip m hbad hnotdone
  have e1 : decodePushes tsEmitOf [a ++ ['\n'], (frameHdr ++ m) ++ ['\n'], b] =
      tsDecodeBytes ((a ++ ['\n']) ++ ((frameHdr ++ m) ++ ['\n']) ++ b) := by
    rw [decodePushes_eq_single]
    simp [tsDecodeBytes, tsDecodePushes, decodePushes]
  have e2 : decodePushes tsEmitOf [a ++ ['\n'], b] =
      tsDecodeBytes ((a ++ ['\n']) ++ b) := by
    rw [decodePushes_eq_single]
    simp [tsDecodeBytes, tsDecodePushes, decodePushes]
  rw [← e1, ← e2]
  unfold decodePushes
  cases hfA : feed tsEmitOf initState (a ++ ['\n']) with
  | mk s1 ea =>
    have hbuf : s1.buffer = [] := by
      have := feed_newline_ends_buffer tsEmitOf a
      rw [hfA] at this
      exact this
    have hF : feed tsEmitOf s1 ((frameHdr ++ m) ++ ['\n']) = (s1, []) := by
      have h := feed_line_of_empty_buffer tsEmitOf s1 hbuf (frameHdr ++ m) hnlfm
      rw [hframe] at h
      cases s1 with
      | mk buf1 dn1 =>
        simp only at hbuf
        subst hbuf
        cases dn1 <;> simpa using h
    have hF' : feed tsEmitOf s1 (frameHdr ++ (m ++ ['\n'])) = (s1, []) := by
      rw [← List.append_assoc]
      exact hF
    simp [feedAll, hfA, hF, hF']

theorem c4_malformed_frame_skipped_witness :
    ('\n' ∉ chars "\x7boops") ∧
    parseJson ((trimChars (frameHdr ++ chars "\x7boops")).drop 6) = none ∧
    (trimChars (frameHdr ++ chars "\x7boops")).drop 6 ≠ doneLit ∧
    tsDecodeBytes
        ((chars "data: \x7b\"choices\":[\x7b\"delta\":\x7b\"content\":\"A\"\x7d\x7d]\x7d" ++ ['\n']) ++
         ((frameHdr ++ chars "\x7boops") ++ ['\n']) ++
         chars "data: \x7b\"choices\":[\x7b\"delta\":\x7b\"content\":\"B\"\x7d\x7d]\x7d\ndata: [DONE]\n") =
      tsDecodeBytes
        ((chars "data: \x7b\"choices\":[\x7b\"delta\":\x7b\"content\":\"A\"\x7d\x7d]\x7d" ++ ['\n']) ++
         chars "data: \x7b\"choices\":[\x7b\"delta\":\x7b\"content\":\"B\"\x7d\x7d]\x7d\ndata: [DONE]\n") :=
  ⟨by decide, rfl, by decide,
   c4_malformed_frame_skipped
     (chars "data: \x7b\"choices\":[\x7b\"delta\":\x7b\"content\":\"A\"\x7d\x7d]\x7d")
     (chars "\x7boops")
     (chars "data: \x7b\"choices\":[\x7b\"delta\":\x7b\"content\":\"B\"\x7d\x7d]\x7d\ndata: [DONE]\n")
     (by decide) rfl (by decide)⟩

theorem sendMessageStream_foldl_aux (l : List (List Char)) :
    ∀ p q, l.foldl (fun acc d => (acc.1 ++ [d], acc.2 ++ d)) (p, q) =
      (p ++ l, q ++ l.flatten) := by
  induction l with
  | nil => intro p q; simp
  | cons d t ih =>
    intro p q
    simp only [List.foldl_cons, ih, List.flatten_cons]
    simp [List.append_assoc]

/-- C5: For every streaming completion that ends with the literal sentinel
payload `[DONE]`: the per-delta callback is invoked once per emitted content
fragment in arrival order (the callback trace IS the decoded delta
sequence); no payload after the sentinel line is processed (appending any
`b` after the sentinel changes nothing); and the returned full text equals
the concatenation of all emitted deltas in that order — in particular
frames `Hel`, `lo!` then `[DONE]` yield callbacks `Hel`, `lo!` and full
text `Hello!`. -/
theorem c5_streaming_send_done (pushes : List (List Char)) (a b : List Char) :
    (sendMessageStream pushes).1 = tsDecodePushes pushes ∧
    (sendMessageStream pushes).2 = (tsDecodePushes pushes).flatten ∧
    tsDecodeBytes ((a ++ ['\n']) ++ ((frameHdr ++ doneLit) ++ ['\n']) ++ b) =
      tsDecodeBytes ((a ++ ['\n']) ++ ((frameHdr ++ doneLit) ++ ['\n'])) ∧
    sendMessageStream
        [chars "data: \x7b\"choices\":[\x7b\"delta\":\x7b\"content\":\"Hel\"\x7d\x7d]\x7d\n\ndata: \x7b\"choices\":[\x7b\"delta\":\x7b\"content\":\"lo!\"\x7d\x7d]\x7d\n\ndata: [DONE]\n\n"] =
      ([chars "Hel", chars "lo!"], chars "Hello!") := by
  refine ⟨?_, ?_, ?_, by rfl⟩
  · unfold sendMessageStream
    rw [sendMessageStream_foldl_aux]
    simp
  · unfold sendMessageStream
    rw [sendMessageStream_foldl_aux]
    simp
  · have hnld : '\n' ∉ frameHdr ++ doneLit := by decide
    have hframe : processLine tsEmitOf (frameHdr ++ doneLit) = ([], true) := by decide
    have e1 : decodePushes tsEmitOf [a ++ ['\n'], (frameHdr ++ doneLit) ++ ['\n'], b] =
        tsDecodeBytes ((a ++ ['\n']) ++ ((frameHdr ++ doneLit) ++ ['\n']) ++ b) := by
      rw [decodePushes_eq_single]
      simp [tsDecodeBytes, tsDecodePushes, decodePushes]
    have e2 : decodePushes tsEmitOf [a ++ ['\n'], (frameHdr ++ doneLit) ++ ['\n']] =
        tsDecodeBytes ((a ++ ['\n']) ++ ((frameHdr ++ doneLit) ++ ['\n'])) := by
      rw [decodePushes_eq_single]
      simp [tsDecodeBytes, tsDecodePushes, decodePushes]
    rw [← e1, ← e2]
    unfold decodePushes
    cases hfA : feed tsEmitOf initState (a ++ ['\n']) with
    | mk s1 ea =>
      have hbuf : s1.buffer = [] := by
        have := feed_newline_ends_buffer tsEmitOf a
        rw [hfA] at this
        exact this
      have hD := feed_line_of_empty_buffer tsEmitOf s1 hbuf (frameHdr ++ doneLit) hnld
      rw [hframe] at hD
      by_cases hdn : s1.done
      · rw [if_pos hdn, if_pos hdn] at hD
        have hD' : feed tsEmitOf s1 (frameHdr ++ (doneLit ++ ['\n'])) = (s1, []) := by
          rw [← List.append_assoc]; exact hD
        simp [feedAll, hfA, hD, hD', feed_done tsEmitOf s1 hdn]
      · rw [if_neg hdn, if_neg hdn] at hD
        simp only [if_pos rfl] at hD
        have hD' : feed tsEmitOf s1 (frameHdr ++ (doneLit ++ ['\n'])) =
            (⟨[], true⟩, []) := by
          rw [← List.append_assoc]
          simpa using hD
        have hDone : feed tsEmitOf (⟨[], true⟩ : DecState) b = (⟨[], true⟩, []) :=
          feed_done tsEmitOf ⟨[], true⟩ rfl b
        simp [feedAll, hfA, hD, hD', hDone]

/-! ## Claim C6: shape of the assembled message list -/

/-- Length of the maximal block of system-role entries at the front. -/
def leadingSystemCount (msgs : List ChatMsg) : Nat :=
  (msgs.takeWhile (fun msg => msg.role == Role.system)).length

/-- Length of the maximal block of user-role entries at the back. -/
def trailingUserCount (msgs : List ChatMsg) : Nat :=
  (msgs.reverse.takeWhile (fun msg => msg.role == Role.user)).length

theorem takeWhile_sys_cons (c : List Char) (l : List ChatMsg) :
    List.takeWhile (fun msg => msg.role == Role.system)
      ((⟨Role.system, c⟩ : ChatMsg) :: l)
    = (⟨Role.system, c⟩ : ChatMsg) ::
        List.takeWhile (fun msg => msg.role == Role.system) l := rfl

theorem takeWhile_user_cons (c : List Char) (l : List ChatMsg) :
    List.takeWhile (fun msg => msg.role == Role.user)
      ((⟨Role.user, c⟩ : ChatMsg) :: l)
    = (⟨Role.user, c⟩ : ChatMsg) ::
        List.takeWhile (fun msg => msg.role == Role.user) l := rfl

theorem takeWhile_sys_nil_of_roles (history : List ChatMsg) (u : List Char)
    (hroles : ∀ msg ∈ history, msg.role = Role.user ∨ msg.role = Role.assistant) :
    List.takeWhile (fun msg => msg.role == Role.system)
      (history ++ [(⟨Role.user, u⟩ : ChatMsg)]) = [] := by
  cases history with
  | nil => rfl
  | cons hmsg t =>
    have hns : (hmsg.role == Role.system) = false := by
      rcases hroles hmsg (by simp) with hr | hr <;> simp [hr]
    simp [List.takeWhile, hns]

theorem takeWhile_user_nil (l : List ChatMsg)
    (h : ∀ msg, l.head? = some msg → msg.role ≠ Role.user) :
    List.takeWhile (fun msg => msg.role == Role.user) l = [] := by
  cases l with
  | nil => rfl
  | cons m t =>
    have hm : (m.role == Role.user) = false := by
      have := h m rfl
      simpa using this
    simp [List.takeWhile, hm]

theorem head?_reverse_append_notuser (history tail : List ChatMsg)
    (hlast : ∀ msg, history.getLast? = some msg → msg.role ≠ Role.user)
    (htail : ∀ msg, tail.head? = some msg → msg.role ≠ Role.user) :
    ∀ msg, (history.reverse ++ tail).head? = some msg → msg.role ≠ Role.user := by
  intro msg hmsg
  cases hrev : history.reverse with
  | nil =>
    rw [hrev, List.nil_append] at hmsg
    exact htail msg hmsg
  | cons hm t =>
    rw [hrev, List.cons_append] at hmsg
    simp only [List.head?_cons, Option.some.injEq] at hmsg
    subst hmsg
    apply hlast
    rw [List.getLast?_eq_head?_reverse, hrev]
    rfl

theorem trailingUserCount_eq_one (front : List ChatMsg) (u : List Char)
    (hfront : ∀ msg, front.reverse.head? = some msg → msg.role ≠ Role.user) :
    trailingUserCount (front ++ [(⟨Role.user, u⟩ : ChatMsg)]) = 1 := by
  unfold trailingUserCount
  rw [List.reverse_append]
  simp only [List.reverse_cons, List.reverse_nil, List.nil_append,
    List.singleton_append]
  rw [takeWhile_user_cons, takeWhile_user_nil front.reverse hfront]
  rfl

/-- C6 counterexample: the go `buildMessages` with a single file in context
produces a message list starting with TWO system-role entries (the main
prompt and the file-context message), not exactly one as the claim states. -/
theorem c6_counterexample_two_leading_system :
    leadingSystemCount
        (goBuildMessages (chars "SYS") [(chars "a.txt", chars "x")] [] (chars "Hi")) ≠ 1 ∧
    leadingSystemCount
        (goBuildMessages (chars "SYS") [(chars "a.txt", chars "x")] [] (chars "Hi")) = 2 := by
  constructor <;> decide

/-- C6 (amended): for every history made of user/assistant entries that does
not end with a user entry, the node `buildMessages` output starts with
exactly one system-role entry and ends with exactly one user-role entry
whose content equals the new input text; the go `buildMessages` output ends
the same way but starts with exactly TWO system-role entries when the file
context is non-empty (the second carrying the file context) and exactly one
otherwise. -/
theorem c6_build_messages_shape (systemPrompt : List Char)
    (tsFiles : List (List Char × Option (List Char)))
    (goFiles : List (List Char × List Char))
    (history : List ChatMsg) (userMessage : List Char)
    (hroles : ∀ msg ∈ history, msg.role = Role.user ∨ msg.role = Role.assistant)
    (hlast : ∀ msg, history.getLast? = some msg → msg.role ≠ Role.user) :
    (leadingSystemCount (tsBuildMessages systemPrompt tsFiles history userMessage) = 1 ∧
     trailingUserCount (tsBuildMessages systemPrompt tsFiles history userMessage) = 1 ∧
     (tsBuildMessages systemPrompt tsFiles history userMessage).getLast? =
       some ⟨Role.user, userMessage⟩) ∧
    (leadingSystemCount (goBuildMessages systemPrompt goFiles history userMessage) =
       (match goFiles with | [] => 1 | _ => 2) ∧
     trailingUserCount (goBuildMessages systemPrompt goFiles history userMessage) = 1 ∧
     (goBuildMessages systemPrompt goFiles history userMessage).getLast? =
       some ⟨Role.user, userMessage⟩) := by
  have hsysnil := takeWhile_sys_nil_of_roles history userMessage hroles
  have hsysnotuser : ∀ (c : List Char) (msg : ChatMsg),
      ([(⟨Role.system, c⟩ : ChatMsg)].head? = some msg) → msg.role ≠ Role.user := by
    intro c msg hmsg
    simp only [List.head?_cons, Option.some.injEq] at hmsg
    subst hmsg
    intro h
    exact Role.noConfusion h
  constructor
  · unfold tsBuildMessages
    refine ⟨?_, ?_, ?_⟩
    · show ((⟨Role.system, tsSystemContent systemPrompt tsFiles⟩ : ChatMsg) ::
          List.takeWhile (fun msg => msg.role == Role.system)
            (history ++ [(⟨Role.user, userMessage⟩ : ChatMsg)])).length = 1
      rw [hsysnil]
      rfl
    · apply trailingUserCount_eq_one
      rw [List.reverse_cons]
      exact head?_reverse_append_notuser history _ hlast (hsysnotuser _)
    · exact List.getLast?_concat _
  · cases goFiles with
    | nil =>
      unfold goBuildMessages goFileMsgs
      refine ⟨?_, ?_, ?_⟩
      · show ((⟨Role.system, systemPrompt⟩ : ChatMsg) ::
            List.takeWhile (fun msg => msg.role == Role.system)
              (history ++ [(⟨Role.user, userMessage⟩ : ChatMsg)])).length = 1
        rw [hsysnil]
        rfl
      · apply trailingUserCount_eq_one
        rw [List.reverse_append, List.reverse_singleton]
        exact head?_reverse_append_notuser history _ hlast (hsysnotuser _)
      · exact List.getLast?_concat _
    | cons f fs =>
      unfold goBuildMessages goFileMsgs
      refine ⟨?_, ?_, ?_⟩
      · show ((⟨Role.system, systemPrompt⟩ : ChatMsg) ::
            (⟨Role.system, goFileContext (f :: fs)⟩ : ChatMsg) ::
            List.takeWhile (fun msg => msg.role == Role.system)
              (history ++ [(⟨Role.user, userMessage⟩ : ChatMsg)])).length = 2
        rw [hsysnil]
        rfl
      · apply trailingUserCount_eq_one
        rw [List.reverse_append]
        apply head?_reverse_append_notuser history _ hlast
        intro msg hmsg
        simp only [List.reverse_cons, List.reverse_nil, List.nil_append,
          List.cons_append, List.head?_cons, Option.some.injEq] at hmsg
        subst hmsg
        intro h
        exact Role.noConfusion h
      · exact List.getLast?_concat _

theorem c6_build_messages_shape_witness :
    (∀ msg ∈ ([⟨Role.user, chars "q"⟩, ⟨Role.assistant, chars "a"⟩] : List ChatMsg),
        msg.role = Role.user ∨ msg.role = Role.assistant) ∧
    (∀ msg, ([⟨Role.user, chars "q"⟩, ⟨Role.assistant, chars "a"⟩] : List ChatMsg).getLast?
        = some msg → msg.role ≠ Role.user) ∧
    leadingSystemCount
      (goBuildMessages (chars "SYS") [(chars "a.txt", chars "x")]
        [⟨Role.user, chars "q"⟩, ⟨Role.assistant, chars "a"⟩] (chars "Hi")) = 2 := by
  refine ⟨by decide, by decide, ?_⟩
  have h := (c6_build_messages_shape (chars "SYS") [] [(chars "a.txt", chars "x")]
    [⟨Role.user, chars "q"⟩, ⟨Role.assistant, chars "a"⟩] (chars "Hi")
    (by decide) (by decide)).2.1
  simpa using h

/-! ## Claim C8: slash-command recognition and parsing -/

/-- The amended claim as an independent characterisation: after trimming the
input, it is a command iff it starts with `/`; the name is the lower-cased
token between `/` and the first space; the argument string is the remaining
text after that first space, NOT re-trimmed (leading whitespace beyond the
one separator space survives; the input's outer whitespace is already gone). -/
def parseCommandSpec (input : List Char) : Option (List Char × List Char) :=
  let t := trimChars input
  if t.head? = some '/' then
    some (((t.drop 1).takeWhile (fun c => !(c == ' '))).map Char.toLower,
          ((t.drop 1).dropWhile (fun c => !(c == ' '))).drop 1)
  else none

theorem findIdx?_none_take_drop {α : Type} (p : α → Bool) (l : List α)
    (h : l.findIdx? p = none) :
    l.takeWhile (fun c => !(p c)) = l ∧ l.dropWhile (fun c => !(p c)) = [] := by
  induction l with
  | nil => simp
  | cons c cs ih =>
    rw [List.findIdx?_cons] at h
    by_cases hp : p c
    · rw [if_pos hp] at h
      exact absurd h (by simp)
    · rw [if_neg hp, List.findIdx?_succ] at h
      have hcs : cs.findIdx? p = none := by
        cases hx : cs.findIdx? p with
        | none => rfl
        | some j => rw [hx] at h; simp at h
      obtain ⟨h1, h2⟩ := ih hcs
      constructor
      · simp [List.takeWhile, hp, h1]
      · simp [List.dropWhile, hp, h2]

theorem findIdx?_some_take_drop {α : Type} (p : α → Bool) (l : List α) :
    ∀ j, l.findIdx? p = some j →
      l.takeWhile (fun c => !(p c)) = l.take j ∧
      l.dropWhile (fun c => !(p c)) = l.drop j := by
  induction l with
  | nil => intro j h; simp at h
  | cons c cs ih =>
    intro j h
    rw [List.findIdx?_cons] at h
    by_cases hp : p c
    · rw [if_pos hp] at h
      have hj : j = 0 := by simpa using h.symm
      subst hj
      constructor
      · simp [List.takeWhile, hp]
      · simp [List.dropWhile, hp]
    · rw [if_neg hp, List.findIdx?_succ] at h
      cases hx : cs.findIdx? p with
      | none => rw [hx] at h; simp at h
      | some j' =>
        rw [hx] at h
        simp only [Option.map_some', Option.some.injEq] at h
        subst h
        obtain ⟨h1, h2⟩ := ih j' hx
        constructor
        · simp [List.takeWhile, hp, h1, List.take_succ_cons]
        · simp [List.dropWhile, hp, h2, List.drop_succ_cons]

theorem dropWhile_ends_keep (p : Char → Bool) (l : List Char) (c : Char)
    (hc : p c = false) :
    ∃ l', (l ++ [c]).dropWhile p = l' ++ [c] := by
  induction l with
  | nil => exact ⟨[], by simp [List.dropWhile, hc]⟩
  | cons x xs ih =>
    by_cases hx : p x
    · obtain ⟨l', hl'⟩ := ih
      exact ⟨l', by simp [List.dropWhile, hx, hl']⟩
    · exact ⟨x :: xs, by simp [List.dropWhile, hx]⟩

theorem rtrim_head? (l : List Char)
    (h : ∀ c, l.head? = some c → isWsChar c = false) :
    (rtrim l).head? = l.head? := by
  cases l with
  | nil => rfl
  | cons c cs =>
    have hc := h c rfl
    unfold rtrim
    obtain ⟨l', hl'⟩ := dropWhile_ends_keep isWsChar cs.reverse c hc
    rw [List.reverse_cons, hl', List.reverse_append]
    simp

theorem ltrim_head_not_ws (input : List Char) :
    ∀ c, (ltrim input).head? = some c → isWsChar c = false := by
  unfold ltrim
  induction input with
  | nil => intro c h; simp at h
  | cons x xs ih =>
    by_cases hx : isWsChar x
    · intro c h
      rw [List.dropWhile_cons_of_pos hx] at h
      exact ih c h
    · intro c h
      rw [List.dropWhile_cons_of_neg hx, List.head?_cons] at h
      cases h
      exact Bool.eq_false_iff.mpr hx

theorem head?_trimChars (input : List Char) :
    (trimChars input).head? = (ltrim input).head? := by
  unfold trimChars
  exact rtrim_head? (ltrim input) (ltrim_head_not_ws input)

/-- C8 counterexample: the code does NOT trim the parsed argument string.
On `"/add  x"` (two spaces) the parsed argument is `" x"`, which differs
from its trimmed form `"x"` that the claim prescribes. -/
theorem c8_counterexample_args_not_trimmed :
    parseCommand (chars "/add  x") = some (chars "add", chars " x") ∧
    chars " x" ≠ trimChars (chars " x") := by
  constructor
  · rfl
  · decide

/-- C8 (amended): an input is recognized as a command iff, after trimming
leading whitespace, it starts with `/`; the parsed command name is the token
between the `/` and the first space, case-folded to lower case; the parsed
argument string is the remaining text after that first space exactly as it
stands in the trimmed input — it is NOT re-trimmed (and is empty when there
is no space). -/
theorem c8_parse_command_characterised (input : List Char) :
    ((parseCommand input).isSome ↔ (ltrim input).head? = some '/') ∧
    parseCommand input = parseCommandSpec input := by
  constructor
  · unfold parseCommand
    by_cases hc : (trimChars input).head? = some '/'
    · rw [if_pos hc]
      rw [head?_trimChars] at hc
      cases hfi : (trimChars input).findIdx? (fun c => c == ' ') <;>
        simp [hfi, hc]
    · rw [if_neg hc]
      rw [head?_trimChars] at hc
      simp [hc]
  · unfold parseCommand parseCommandSpec
    by_cases hc : (trimChars input).head? = some '/'
    · rw [if_pos hc, if_pos hc]
      cases ht : trimChars input with
      | nil => rw [ht] at hc; simp at hc
      | cons c rest =>
        rw [ht] at hc
        rw [List.head?_cons, Option.some.injEq] at hc
        subst hc
        rw [List.findIdx?_cons, if_neg (by decide), List.findIdx?_succ]
        cases hre : rest.findIdx? (fun c => c == ' ') with
        | none =>
          obtain ⟨h1, h2⟩ := findIdx?_none_take_drop (fun c => c == ' ') rest hre
          simp [h1, h2]
        | some j =>
          obtain ⟨h1, h2⟩ := findIdx?_some_take_drop (fun c => c == ' ') rest j hre
          simp only [Option.map_some', List.take_succ_cons, List.drop_succ_cons,
            List.drop_zero, h1, h2, List.drop_drop]
    · rw [if_neg hc, if_neg hc]

/-! ## Claim C3: emissions per decoded chunk -/

/-- On any `delta` value the go unmarshal accepts, the node extraction
`delta?.content` (with its falsiness check) emits exactly when the go check
`Content != ""` does, and the same string. -/
theorem tsEmit_delta_agree (od : Option Json) (d : StreamDelta)
    (h : jsonToDelta od = some d) :
    (match (match od with
            | none => (none : Option (List Char))
            | some dj =>
              match jField dj (chars "content") with
              | some (Json.jstr s) => some s
              | _ => none) with
     | some s => if s = [] then ([] : List (List Char)) else [s]
     | none => ([] : List (List Char))) =
    (if d.content = [] then ([] : List (List Char)) else [d.content]) := by
  cases od with
  | none =>
    simp only [jsonToDelta, Option.some.injEq] at h
    subst h
    simp
  | some dj =>
    cases dj with
    | jnull =>
      simp only [jsonToDelta, Option.some.injEq] at h
      subst h
      rfl
    | jbool b => simp [jsonToDelta] at h
    | jnum n => simp [jsonToDelta] at h
    | jstr s => simp [jsonToDelta] at h
    | jarr xs => simp [jsonToDelta] at h
    | jobj gs =>
      cases hr : strFieldD (Json.jobj gs) (chars "role") with
      | none => simp [jsonToDelta, hr] at h
      | some r =>
        cases hcnt : jField (Json.jobj gs) (chars "content") with
        | none =>
          have hs : strFieldD (Json.jobj gs) (chars "content") = some [] := by
            simp [strFieldD, hcnt]
          simp only [jsonToDelta, hr, hs, Option.some.injEq] at h
          subst h
          simp [hcnt]
        | some cj =>
          cases cj with
          | jnull =>
            have hs : strFieldD (Json.jobj gs) (chars "content") = some [] := by
              simp [strFieldD, hcnt]
            simp only [jsonToDelta, hr, hs, Option.some.injEq] at h
            subst h
            simp [hcnt]
          | jstr s =>
            have hs : strFieldD (Json.jobj gs) (chars "content") = some s := by
              simp [strFieldD, hcnt]
            simp only [jsonToDelta, hr, hs, Option.some.injEq] at h
            subst h
            simp [hcnt]
          | jbool b => simp [jsonToDelta, hr, strFieldD, hcnt] at h
          | jnum n => simp [jsonToDelta, hr, strFieldD, hcnt] at h
          | jarr xs => simp [jsonToDelta, hr, strFieldD, hcnt] at h
          | jobj gs2 => simp [jsonToDelta, hr, strFieldD, hcnt] at h

/-- On any `choices` element the go unmarshal accepts, the node extraction
agrees with the go emission decision for that choice. -/
theorem tsEmit_choice_agree (x : Json) (ch : StreamChoice)
    (h : jsonToChoice x = some ch) :
    (match tsDeltaContentOfChoice x with
     | some s => if s = [] then ([] : List (List Char)) else [s]
     | none => ([] : List (List Char))) =
    (if ch.delta.content = [] then ([] : List (List Char))
     else [ch.delta.content]) := by
  cases x with
  | jnull =>
    simp only [jsonToChoice, Option.some.injEq] at h
    subst h
    simp [tsDeltaContentOfChoice, jField]
  | jbool b => simp [jsonToChoice] at h
  | jnum n => simp [jsonToChoice] at h
  | jstr s => simp [jsonToChoice] at h
  | jarr xs => simp [jsonToChoice] at h
  | jobj fs =>
    cases hi : intFieldD (Json.jobj fs) (chars "index") with
    | none => simp [jsonToChoice, hi] at h
    | some i =>
      cases hd : jsonToDelta (jField (Json.jobj fs) (chars "delta")) with
      | none => simp [jsonToChoice, hi, hd] at h
      | some d =>
        cases hfr : optStrField (Json.jobj fs) (chars "finish_reason") with
        | none => simp [jsonToChoice, hi, hd, hfr] at h
        | some fr =>
          simp only [jsonToChoice, hi, hd, hfr, Option.some.injEq] at h
          subst h
          have hagree := tsEmit_delta_agree (jField (Json.jobj fs) (chars "delta")) d hd
          simpa [tsDeltaContentOfChoice] using hagree

/-- On any payload the go unmarshal accepts as a chunk, the node decoder
emits at most one delta: the first choice's content when non-empty. -/
theorem tsEmitJson_of_chunk (j : Json) (c : StreamChunk)
    (h : jsonToChunk j = some c) :
    tsEmitJson j =
      (match c.choices.head? with
       | some ch => if ch.delta.content = [] then ([] : List (List Char))
                    else [ch.delta.content]
       | none => ([] : List (List Char))) := by
  cases j with
  | jnull =>
    simp only [jsonToChunk, Option.some.injEq] at h
    subst h
    simp [tsEmitJson, tsContentDelta, jField]
  | jbool b => simp [jsonToChunk] at h
  | jnum n => simp [jsonToChunk] at h
  | jstr s => simp [jsonToChunk] at h
  | jarr xs => simp [jsonToChunk] at h
  | jobj fs =>
    cases hid : strFieldD (Json.jobj fs) (chars "id") with
    | none => simp [jsonToChunk, hid] at h
    | some i =>
      cases hob : strFieldD (Json.jobj fs) (chars "object") with
      | none => simp [jsonToChunk, hid, hob] at h
      | some o =>
        cases hch : jField (Json.jobj fs) (chars "choices") with
        | none =>
          simp only [jsonToChunk, hid, hob, hch, Option.some.injEq] at h
          subst h
          simp [tsEmitJson, tsContentDelta, hch]
        | some cj =>
          cases cj with
          | jnull =>
            simp only [jsonToChunk, hid, hob, hch, Option.some.injEq] at h
            subst h
            simp [tsEmitJson, tsContentDelta, hch, jIndex0]
          | jbool b => simp [jsonToChunk, hid, hob, hch] at h
          | jnum n => simp [jsonToChunk, hid, hob, hch] at h
          | jstr s => simp [jsonToChunk, hid, hob, hch] at h
          | jobj fs2 => simp [jsonToChunk, hid, hob, hch] at h
          | jarr xs =>
            cases hm : mapOpt jsonToChoice xs with
            | none => simp [jsonToChunk, hid, hob, hch, hm] at h
            | some cs =>
              simp only [jsonToChunk, hid, hob, hch, hm, Option.some.injEq] at h
              subst h
              cases xs with
              | nil =>
                simp only [mapOpt, Option.some.injEq] at hm
                subst hm
                simp [tsEmitJson, tsContentDelta, hch, jIndex0]
              | cons x xt =>
                cases hc0 : jsonToChoice x with
                | none => simp [mapOpt, hc0] at hm
                | some ch0 =>
                  cases hct : mapOpt jsonToChoice xt with
                  | none => simp [mapOpt, hc0, hct] at hm
                  | some ct =>
                    simp only [mapOpt, hc0, hct, Option.some.injEq] at hm
                    subst hm
                    have hagree := tsEmit_choice_agree x ch0 hc0
                    simpa [tsEmitJson, tsContentDelta, hch, jIndex0] using hagree

/-- C3 counterexample: on a well-formed chunk with TWO choices both
carrying non-empty deltas, the go loop emits both in order but the node
decoder (`chunk.choices?.[0]?.delta?.content`) emits only the first — the
claim's "one delta for each contained choice" fails on the node decoder. -/
theorem c3_counterexample_first_choice_only :
    goParseChunk
        (chars "\x7b\"choices\":[\x7b\"delta\":\x7b\"content\":\"A\"\x7d\x7d,\x7b\"delta\":\x7b\"content\":\"B\"\x7d\x7d]\x7d") =
      some ⟨[], [], [⟨0, ⟨[], chars "A"⟩, none⟩, ⟨0, ⟨[], chars "B"⟩, none⟩]⟩ ∧
    goEmitChunk ⟨[], [], [⟨0, ⟨[], chars "A"⟩, none⟩, ⟨0, ⟨[], chars "B"⟩, none⟩]⟩ =
      [chars "A", chars "B"] ∧
    tsEmitOf
        (chars "\x7b\"choices\":[\x7b\"delta\":\x7b\"content\":\"A\"\x7d\x7d,\x7b\"delta\":\x7b\"content\":\"B\"\x7d\x7d]\x7d") =
      [chars "A"] ∧
    [chars "A"] ≠ [chars "A", chars "B"] :=
  ⟨rfl, rfl, rfl, by decide⟩

/-- C3 (amended): for every well-formed SSE data payload decoded as a chunk,
the GO decoder emits one delta for each contained choice that carries a
non-empty content delta, in the order the choices appear within the chunk;
the NODE decoder emits at most one delta per chunk — the first choice's
content delta when present and non-empty.  In both, a chunk with zero
choices, a missing delta, or an empty-string delta produces no emission. -/
theorem c3_per_chunk_emissions (payload : List Char) (c : StreamChunk)
    (h : goParseChunk payload = some c) :
    goEmitChunk c = c.choices.filterMap
      (fun ch => if ch.delta.content = [] then none else some ch.delta.content) ∧
    tsEmitOf payload =
      (match c.choices.head? with
       | some ch => if ch.delta.content = [] then ([] : List (List Char))
                    else [ch.delta.content]
       | none => ([] : List (List Char))) := by
  refine ⟨goEmitChunk_eq_filterMap c, ?_⟩
  unfold goParseChunk at h
  cases hp : parseJson payload with
  | none => rw [hp] at h; exact absurd h (by simp)
  | some j =>
    rw [hp] at h
    unfold tsEmitOf
    rw [hp]
    exact tsEmitJson_of_chunk j c h

theorem c3_per_chunk_emissions_witness :
    goParseChunk
        (chars "\x7b\"choices\":[\x7b\"delta\":\x7b\"content\":\"Hi\"\x7d\x7d]\x7d") =
      some ⟨[], [], [⟨0, ⟨[], chars "Hi"⟩, none⟩]⟩ ∧
    goEmitChunk ⟨[], [], [⟨0, ⟨[], chars "Hi"⟩, none⟩]⟩ = [chars "Hi"] ∧
    tsEmitOf (chars "\x7b\"choices\":[\x7b\"delta\":\x7b\"content\":\"Hi\"\x7d\x7d]\x7d") =
      [chars "Hi"] := by
  have h := c3_per_chunk_emissions
    (chars "\x7b\"choices\":[\x7b\"delta\":\x7b\"content\":\"Hi\"\x7d\x7d]\x7d")
    ⟨[], [], [⟨0, ⟨[], chars "Hi"⟩, none⟩]⟩ rfl
  exact ⟨rfl, by rw [h.1]; rfl, by rw [h.2]; rfl⟩

end Aider
